import Mathlib

/-!
Verification of the auxjad windowing/fading/hocketing/randomising core.

The source is a Python library of stateful transducers over musical score
containers (`Fader`, `Hocketer`, `PitchRandomiser`, `WindowLooper`).  The
notation toolkit (abjad) that owns the leaf-level score model is an external
collaborator, so the embedding works at the granularity the core itself
manipulates: a container is a list of logical-tie events, each carrying pitch
content (rest, note, or chord) and a rational duration.  Randomness
(`random.randint`, `random.choices`) is modelled by explicit draw streams:
every embedded operation takes the list of values that the pseudo-random
source would have produced, so that the code's control flow over those values
is translated verbatim.
-/

namespace Auxjad

/-- Pitch content of one logical tie: a rest, a single-pitch note, or a chord
with a list of note heads.  Pitches are numbered. -/
inductive PitchContent where
  | rest : PitchContent
  | note : ℕ → PitchContent
  | chord : List ℕ → PitchContent
deriving DecidableEq, Repr

/-- One logical tie of a container: its pitch content and its total duration
(in whole notes, as a rational). -/
structure Event where
  content : PitchContent
  dur : ℚ
deriving DecidableEq, Repr

/-- A logical tie is pitched when it is not a rest (abjad's
`logical_ties(pitched=True)` filter). -/
def Event.isPitched (e : Event) : Bool :=
  match e.content with
  | .rest => false
  | .note _ => true
  | .chord _ => true

/-- Number of pitched logical ties of a container: `Fader.__len__`, which
returns `len(abjad.select(self._contents).logical_ties(pitched=True))`. -/
def pitchedCount (contents : List Event) : ℕ :=
  (contents.filter Event.isPitched).length

/-! ## Fader (src/auxjad/core/Fader.py)

The fade mask is a Python list of the integers `0` and `1`, one entry per
pitched logical tie.  `_remove_element` / `_add_element` mutate it under a
drawn step count; `_mask_to_selection` renders it over a deep copy of the
contents. -/

/-- `fader_type`: the string `'out'` or `'in'`. -/
inductive FaderType where
  | fadeOut : FaderType
  | fadeIn : FaderType
deriving DecidableEq, Repr

/-- One pass of the `while True` retry loop inside `Fader._remove_element`
(with `target = 1`, `newVal = 0`) or `Fader._add_element` (`target = 0`,
`newVal = 1`): indices are drawn until one holding `target` is found, which is
then overwritten with `newVal`.  The drawn indices come from the stream
`draws`; `none` models a stream that never hits a flippable index (the Python
loop would keep drawing). -/
def pickFlip (target newVal : ℕ) (mask : List ℕ) :
    List ℕ → Option (List ℕ × List ℕ)
  | [] => none
  | i :: draws =>
      if mask.getD i 2 = target then some (mask.set i newVal, draws)
      else pickFlip target newVal mask draws

/-- Result of one `_remove_element` / `_add_element` call.  `error` is the
`RuntimeError` raised mid-loop when no flippable entry remains; it carries the
mask at the moment of the raise, because the Python list has been mutated in
place and those mutations persist on the instance.  `divergent` marks an index
stream that never hits a flippable entry. -/
inductive FadeOutcome where
  | ok : List ℕ → List ℕ → FadeOutcome
  | error : List ℕ → FadeOutcome
  | divergent : FadeOutcome
deriving DecidableEq, Repr

/-- The `for _ in range(random.randint(1, self._max_steps))` loop of
`Fader._remove_element` (`target = 1`, `newVal = 0`) and `Fader._add_element`
(`target = 0`, `newVal = 1`): `k` is the drawn step count; each iteration
first checks `if target in mask` and raises when it no longer is. -/
def fadeSteps (target newVal : ℕ) : ℕ → List ℕ → List ℕ → FadeOutcome
  | 0, mask, draws => .ok mask draws
  | k + 1, mask, draws =>
      if target ∈ mask then
        match pickFlip target newVal mask draws with
        | some (m, d) => fadeSteps target newVal k m d
        | none => .divergent
      else .error mask

/-- `Fader._done`: for `'out'` the mask holds no `1`, for `'in'` no `0`. -/
def faderDone (faderType : FaderType) (mask : List ℕ) : Bool :=
  match faderType with
  | .fadeOut => !(decide (1 ∈ mask))
  | .fadeIn => !(decide (0 ∈ mask))

/-- The `zip(self._mask, logical_ties)` loop of `Fader._mask_to_selection`:
every pitched logical tie whose mask entry is `0` is replaced by a rest of the
same duration; rests and ties beyond the mask's length (where `zip` stops) are
left untouched. -/
def maskToEvents : List ℕ → List Event → List Event
  | _, [] => []
  | mask, e :: es =>
      if e.isPitched then
        match mask with
        | [] => e :: maskToEvents [] es
        | b :: bs =>
            (if b = 0 then ⟨.rest, e.dur⟩ else e) :: maskToEvents bs es
      else e :: maskToEvents mask es

/-- Modelled from the spec: `rests_to_multimeasure_rest` (imported by
`Fader._mask_to_selection` from `..utilities.rests_to_multimeasure_rest`,
a module absent from the sources) compacts a measure consisting solely of
rests into a single multi-measure rest.  Modelled here for a single-measure
container whose measure length is `measure`: when every event is a rest the
whole list becomes one rest of the full measure duration. -/
def restsToMultimeasureRest (measure : ℚ) (events : List Event) : List Event :=
  if events ≠ [] ∧ events.all (fun e => e.content = .rest) then
    [⟨.rest, measure⟩]
  else events

/-- State of a `Fader` instance: the slots the embedded methods read or
write (`_contents`, `_fader_type`, `_max_steps`, `_mask`,
`_is_first_window`, `_new_mask`, `_use_multimeasure_rest`).  The remaining
flags (`disable_rewrite_meter`, `omit_all_time_signatures`,
`force_time_signature`) only tune the external re-metering collaborator and
are not represented. -/
structure FaderState where
  contents : List Event
  faderType : FaderType
  maxSteps : ℕ
  mask : List ℕ
  isFirstWindow : Bool
  newMask : Bool
  useMultimeasureRest : Bool
deriving DecidableEq, Repr

/-- The rendering half of `Fader._mask_to_selection` at event level: apply
the mask, then (with `use_multimeasure_rest`) compact an all-rest measure.
Re-metering (`enforce_time_signature` + `rewrite_meter`) is the external
notation collaborator and is the identity at logical-tie granularity. -/
def faderWindow (s : FaderState) : List Event :=
  if s.useMultimeasureRest then
    restsToMultimeasureRest (s.contents.map Event.dur).sum
      (maskToEvents s.mask s.contents)
  else maskToEvents s.mask s.contents

/-- Result of `Fader.__call__`: a window together with the post-call state,
a propagated `RuntimeError` (with the state at the raise, since the mask
mutations persist), or divergence of the retry loop. -/
inductive FaderCallResult where
  | window : FaderState → List Event → FaderCallResult
  | runtimeError : FaderState → FaderCallResult
  | divergent : FaderCallResult
deriving DecidableEq, Repr

/-- `Fader.__call__`: when neither `_is_first_window` nor `_new_mask` is set,
fade one element (`kDraw` is the `random.randint(1, self._max_steps)` draw,
`draws` the index stream) and render; otherwise render the mask as-is and
clear both flags. -/
def faderCall (s : FaderState) (kDraw : ℕ) (draws : List ℕ) :
    FaderCallResult :=
  if !s.isFirstWindow && !s.newMask then
    match (match s.faderType with
           | .fadeOut => fadeSteps 1 0 kDraw s.mask draws
           | .fadeIn => fadeSteps 0 1 kDraw s.mask draws) with
    | .ok m _ =>
        let s' := { s with mask := m }
        .window s' (faderWindow s')
    | .error m => .runtimeError { s with mask := m }
    | .divergent => .divergent
  else
    let s' := { s with isFirstWindow := false, newMask := false }
    .window s' (faderWindow s)

/-- Result of `Fader.__next__`: like `__call__` but with `StopIteration`. -/
inductive FaderNextResult where
  | window : FaderState → List Event → FaderNextResult
  | stopIteration : FaderNextResult
  | runtimeError : FaderState → FaderNextResult
  | divergent : FaderNextResult
deriving DecidableEq, Repr

/-- `Fader.__next__`: first checks `self._done` and raises `StopIteration`;
otherwise behaves exactly like `__call__`. -/
def faderNext (s : FaderState) (kDraw : ℕ) (draws : List ℕ) :
    FaderNextResult :=
  if faderDone s.faderType s.mask then .stopIteration
  else
    match faderCall s kDraw draws with
    | .window s' w => .window s' w
    | .runtimeError s' => .runtimeError s'
    | .divergent => .divergent

/-- `Fader.reset_mask`: sets `_new_mask` and rebuilds the mask as all-`1`
(`'out'`) or all-`0` (`'in'`) over the pitched logical ties. -/
def faderResetMask (s : FaderState) : FaderState :=
  { s with newMask := true,
           mask := match s.faderType with
                   | .fadeOut => List.replicate (pitchedCount s.contents) 1
                   | .fadeIn => List.replicate (pitchedCount s.contents) 0 }

/-- The `contents` setter of `Fader`: stores a deep copy of the new contents
and calls `reset_mask`.  It does not touch `_is_first_window`. -/
def faderSetContents (s : FaderState) (c : List Event) : FaderState :=
  faderResetMask { s with contents := c }

/-- Running a whole sequence of fade operations (the per-call
`_remove_element` / `_add_element` transitions) over a mask; each operation
brings its own drawn step count and index stream.  `none` when an operation
raises or diverges. -/
def fadeOpsRun (target newVal : ℕ) :
    List (ℕ × List ℕ) → List ℕ → Option (List ℕ)
  | [], mask => some mask
  | (k, d) :: ops, mask =>
      match fadeSteps target newVal k mask d with
      | .ok m _ => fadeOpsRun target newVal ops m
      | _ => none

theorem pickFlip_spec {target newVal : ℕ} (htarget : target ≤ 1)
    {mask m d : List ℕ} :
    ∀ {draws : List ℕ}, pickFlip target newVal mask draws = some (m, d) →
    ∃ i, i < mask.length ∧ mask.getD i 2 = target ∧ m = mask.set i newVal := by
  intro draws
  induction draws with
  | nil => intro h; simp [pickFlip] at h
  | cons i rest ih =>
      intro h
      by_cases hi : mask.getD i 2 = target
      · simp only [pickFlip, hi, if_pos rfl] at h
        obtain ⟨rfl, rfl⟩ := Prod.mk.injEq .. ▸ (Option.some.injEq .. ▸ h)
        have hlen : i < mask.length := by
          by_contra hge
          rw [List.getD_eq_default _ _ (le_of_not_lt hge)] at hi
          omega
        exact ⟨i, hlen, hi, rfl⟩
      · simp only [pickFlip, hi, if_false] at h
        exact ih h

theorem sum_set_flip_out {mask : List ℕ} :
    ∀ {i : ℕ}, mask.getD i 2 = 1 → (mask.set i 0).sum + 1 = mask.sum := by
  induction mask with
  | nil => intro i h; simp [List.getD] at h
  | cons a t ih =>
      intro i h
      cases i with
      | zero => simp_all [List.getD]; omega
      | succ j =>
          simp only [List.getD_cons_succ] at h
          simp only [List.set_cons_succ, List.sum_cons]
          have := ih h
          omega

theorem sum_set_flip_in {mask : List ℕ} :
    ∀ {i : ℕ}, mask.getD i 2 = 0 → (mask.set i 1).sum = mask.sum + 1 := by
  induction mask with
  | nil => intro i h; simp [List.getD] at h
  | cons a t ih =>
      intro i h
      cases i with
      | zero => simp_all [List.getD]; omega
      | succ j =>
          simp only [List.getD_cons_succ] at h
          simp only [List.set_cons_succ, List.sum_cons]
          have := ih h
          omega

theorem mem_le_one_of_set {mask : List ℕ} {i v x : ℕ}
    (hm : ∀ y ∈ mask, y ≤ 1) (hv : v ≤ 1) (hx : x ∈ mask.set i v) : x ≤ 1 := by
  rcases List.mem_or_eq_of_mem_set hx with h | rfl
  · exact hm x h
  · exact hv

theorem mask_sum_le_length {mask : List ℕ} (hm : ∀ x ∈ mask, x ≤ 1) :
    mask.sum ≤ mask.length := by
  induction mask with
  | nil => simp
  | cons a t ih =>
      simp only [List.sum_cons, List.length_cons]
      have ha := hm a (List.mem_cons_self a t)
      have := ih (fun x hx => hm x (List.mem_cons_of_mem a hx))
      omega

theorem one_not_mem_iff_sum_zero {mask : List ℕ} (hm : ∀ x ∈ mask, x ≤ 1) :
    1 ∉ mask ↔ mask.sum = 0 := by
  induction mask with
  | nil => simp
  | cons a t ih =>
      have ha := hm a (List.mem_cons_self a t)
      have it := ih (fun x hx => hm x (List.mem_cons_of_mem a hx))
      simp only [List.mem_cons, List.sum_cons, not_or]
      constructor
      · rintro ⟨h1, h2⟩
        have : a = 0 := by omega
        rw [it.mp h2] at *
        omega
      · intro h
        have h0 : a = 0 ∧ t.sum = 0 := by omega
        exact ⟨by omega, it.mpr h0.2⟩

theorem zero_not_mem_iff_sum_length {mask : List ℕ} (hm : ∀ x ∈ mask, x ≤ 1) :
    0 ∉ mask ↔ mask.sum = mask.length := by
  induction mask with
  | nil => simp
  | cons a t ih =>
      have ha := hm a (List.mem_cons_self a t)
      have it := ih (fun x hx => hm x (List.mem_cons_of_mem a hx))
      have hst := mask_sum_le_length (fun x hx => hm x (List.mem_cons_of_mem a hx))
      simp only [List.mem_cons, List.sum_cons, List.length_cons, not_or]
      constructor
      · rintro ⟨h1, h2⟩
        have : a = 1 := by omega
        have := it.mp h2
        omega
      · intro h
        have h1 : a = 1 ∧ t.sum = t.length := by omega
        exact ⟨by omega, it.mpr h1.2⟩

theorem fadeSteps_out_ok {k : ℕ} :
    ∀ {mask draws m d : List ℕ}, (∀ x ∈ mask, x ≤ 1) →
    fadeSteps 1 0 k mask draws = .ok m d →
    m.sum + k = mask.sum ∧ m.length = mask.length ∧ ∀ x ∈ m, x ≤ 1 := by
  induction k with
  | zero =>
      intro mask draws m d hm h
      simp only [fadeSteps] at h
      obtain ⟨rfl, rfl⟩ := FadeOutcome.ok.injEq .. ▸ h
      exact ⟨rfl, rfl, hm⟩
  | succ k ih =>
      intro mask draws m d hm h
      simp only [fadeSteps] at h
      split at h
      · cases hp : pickFlip 1 0 mask draws with
        | none => rw [hp] at h; exact absurd h (by simp)
        | some md =>
            obtain ⟨m1, d1⟩ := md
            rw [hp] at h
            change fadeSteps 1 0 k m1 d1 = FadeOutcome.ok m d at h
            obtain ⟨i, hlen, hget, hset⟩ := pickFlip_spec (by omega) hp
            subst hset
            have hsum := sum_set_flip_out hget
            have hm' : ∀ x ∈ mask.set i 0, x ≤ 1 :=
              fun x hx => mem_le_one_of_set hm (by omega) hx
            obtain ⟨g1, g2, g3⟩ := ih hm' h
            rw [List.length_set] at g2
            exact ⟨by omega, g2, g3⟩
      · exact absurd h (by simp)

theorem fadeSteps_in_ok {k : ℕ} :
    ∀ {mask draws m d : List ℕ}, (∀ x ∈ mask, x ≤ 1) →
    fadeSteps 0 1 k mask draws = .ok m d →
    m.sum = mask.sum + k ∧ m.length = mask.length ∧ ∀ x ∈ m, x ≤ 1 := by
  induction k with
  | zero =>
      intro mask draws m d hm h
      simp only [fadeSteps] at h
      obtain ⟨rfl, rfl⟩ := FadeOutcome.ok.injEq .. ▸ h
      exact ⟨rfl, rfl, hm⟩
  | succ k ih =>
      intro mask draws m d hm h
      simp only [fadeSteps] at h
      split at h
      · cases hp : pickFlip 0 1 mask draws with
        | none => rw [hp] at h; exact absurd h (by simp)
        | some md =>
            obtain ⟨m1, d1⟩ := md
            rw [hp] at h
            change fadeSteps 0 1 k m1 d1 = FadeOutcome.ok m d at h
            obtain ⟨i, hlen, hget, hset⟩ := pickFlip_spec (by omega) hp
            subst hset
            have hsum := sum_set_flip_in hget
            have hm' : ∀ x ∈ mask.set i 1, x ≤ 1 :=
              fun x hx => mem_le_one_of_set hm (by omega) hx
            obtain ⟨g1, g2, g3⟩ := ih hm' h
            rw [List.length_set] at g2
            exact ⟨by omega, g2, g3⟩
      · exact absurd h (by simp)

theorem fadeOpsRun_out {ops : List (ℕ × List ℕ)} :
    ∀ {mask m : List ℕ}, (∀ x ∈ mask, x ≤ 1) →
    fadeOpsRun 1 0 ops mask = some m →
    m.sum ≤ mask.sum ∧ m.length = mask.length ∧ ∀ x ∈ m, x ≤ 1 := by
  induction ops with
  | nil =>
      intro mask m hm h
      simp only [fadeOpsRun, Option.some.injEq] at h
      exact h ▸ ⟨le_refl _, rfl, hm⟩
  | cons op rest ih =>
      intro mask m hm h
      obtain ⟨k, d⟩ := op
      simp only [fadeOpsRun] at h
      split at h
      · next m' d' heq =>
          obtain ⟨h1, h2, h3⟩ := fadeSteps_out_ok hm heq
          obtain ⟨g1, g2, g3⟩ := ih h3 h
          exact ⟨by omega, by omega, g3⟩
      · exact absurd h (by simp)

theorem fadeOpsRun_in {ops : List (ℕ × List ℕ)} :
    ∀ {mask m : List ℕ}, (∀ x ∈ mask, x ≤ 1) →
    fadeOpsRun 0 1 ops mask = some m →
    mask.sum ≤ m.sum ∧ m.length = mask.length ∧ ∀ x ∈ m, x ≤ 1 := by
  induction ops with
  | nil =>
      intro mask m hm h
      simp only [fadeOpsRun, Option.some.injEq] at h
      exact h ▸ ⟨le_refl _, rfl, hm⟩
  | cons op rest ih =>
      intro mask m hm h
      obtain ⟨k, d⟩ := op
      simp only [fadeOpsRun] at h
      split at h
      · next m' d' heq =>
          obtain ⟨h1, h2, h3⟩ := fadeSteps_in_ok hm heq
          obtain ⟨g1, g2, g3⟩ := ih h3 h
          exact ⟨by omega, by omega, g3⟩
      · exact absurd h (by simp)

theorem fadeSteps_out_overdraw {k : ℕ} :
    ∀ {mask draws : List ℕ}, (∀ x ∈ mask, x ≤ 1) → mask.sum < k →
    fadeSteps 1 0 k mask draws ≠ .divergent →
    ∃ m, fadeSteps 1 0 k mask draws = .error m
      ∧ m.sum = 0 ∧ m.length = mask.length := by
  induction k with
  | zero => intro mask draws _ hlt; omega
  | succ k ih =>
      intro mask draws hm hlt hnd
      by_cases hmem : 1 ∈ mask
      · have hpos : mask.sum ≠ 0 :=
          fun h0 => ((one_not_mem_iff_sum_zero hm).mpr h0) hmem
        cases hp : pickFlip 1 0 mask draws with
        | none =>
            exact absurd (by simp only [fadeSteps, if_pos hmem, hp]) hnd
        | some md =>
            obtain ⟨m1, d1⟩ := md
            have hred : fadeSteps 1 0 (k + 1) mask draws
                = fadeSteps 1 0 k m1 d1 := by
              simp only [fadeSteps, if_pos hmem, hp]
            obtain ⟨i, hlen, hget, hset⟩ := pickFlip_spec (by omega) hp
            subst hset
            have hsum := sum_set_flip_out hget
            have hm' : ∀ x ∈ mask.set i 0, x ≤ 1 :=
              fun x hx => mem_le_one_of_set hm (by omega) hx
            obtain ⟨m, hmk, h0, hlen'⟩ :=
              ih hm' (by omega) (hred ▸ hnd)
            exact ⟨m, hred ▸ hmk, h0, by rw [hlen', List.length_set]⟩
      · refine ⟨mask, by simp only [fadeSteps, if_neg hmem], ?_, rfl⟩
        exact (one_not_mem_iff_sum_zero hm).mp hmem

theorem fadeSteps_in_overdraw {k : ℕ} :
    ∀ {mask draws : List ℕ}, (∀ x ∈ mask, x ≤ 1) →
    mask.length - mask.sum < k →
    fadeSteps 0 1 k mask draws ≠ .divergent →
    ∃ m, fadeSteps 0 1 k mask draws = .error m
      ∧ m.sum = m.length ∧ m.length = mask.length := by
  induction k with
  | zero => intro mask draws _ hlt; omega
  | succ k ih =>
      intro mask draws hm hlt hnd
      have hsl := mask_sum_le_length hm
      by_cases hmem : 0 ∈ mask
      · have hlt' : mask.sum ≠ mask.length :=
          fun h0 => ((zero_not_mem_iff_sum_length hm).mpr h0) hmem
        cases hp : pickFlip 0 1 mask draws with
        | none =>
            exact absurd (by simp only [fadeSteps, if_pos hmem, hp]) hnd
        | some md =>
            obtain ⟨m1, d1⟩ := md
            have hred : fadeSteps 0 1 (k + 1) mask draws
                = fadeSteps 0 1 k m1 d1 := by
              simp only [fadeSteps, if_pos hmem, hp]
            obtain ⟨i, hlen, hget, hset⟩ := pickFlip_spec (by omega) hp
            subst hset
            have hsum := sum_set_flip_in hget
            have hm' : ∀ x ∈ mask.set i 1, x ≤ 1 :=
              fun x hx => mem_le_one_of_set hm (by omega) hx
            obtain ⟨m, hmk, h0, hlen'⟩ :=
              ih hm' (by rw [List.length_set]; omega) (hred ▸ hnd)
            exact ⟨m, hred ▸ hmk, h0, by rw [hlen', List.length_set]⟩
      · refine ⟨mask, by simp only [fadeSteps, if_neg hmem],
          (zero_not_mem_iff_sum_length hm).mp hmem, rfl⟩

/-- C2: over any sequence of fade operations with the fader type held fixed,
`sum(mask)` is monotonically non-increasing for `'out'` and non-decreasing
for `'in'`; each elementary step (one successful pass of the retry loop)
flips exactly one still-`1` entry to `0` (out) or one still-`0` entry to `1`
(in), so the entries stay in `{0, 1}` and the mask length never changes. -/
theorem fader_mask_monotone_invariant (mask : List ℕ)
    (hm : ∀ x ∈ mask, x ≤ 1) :
    (∀ ops m, fadeOpsRun 1 0 ops mask = some m →
        m.sum ≤ mask.sum ∧ m.length = mask.length ∧ ∀ x ∈ m, x ≤ 1)
    ∧ (∀ ops m, fadeOpsRun 0 1 ops mask = some m →
        mask.sum ≤ m.sum ∧ m.length = mask.length ∧ ∀ x ∈ m, x ≤ 1)
    ∧ (∀ draws m d, pickFlip 1 0 mask draws = some (m, d) →
        ∃ i, i < mask.length ∧ mask.getD i 2 = 1 ∧ m = mask.set i 0
          ∧ m.sum + 1 = mask.sum)
    ∧ (∀ draws m d, pickFlip 0 1 mask draws = some (m, d) →
        ∃ i, i < mask.length ∧ mask.getD i 2 = 0 ∧ m = mask.set i 1
          ∧ m.sum = mask.sum + 1) := by
  refine ⟨fun ops m h => fadeOpsRun_out hm h,
          fun ops m h => fadeOpsRun_in hm h, ?_, ?_⟩
  · intro draws m d h
    obtain ⟨i, hlen, hget, hset⟩ := pickFlip_spec (by omega) h
    exact ⟨i, hlen, hget, hset, hset ▸ sum_set_flip_out hget⟩
  · intro draws m d h
    obtain ⟨i, hlen, hget, hset⟩ := pickFlip_spec (by omega) h
    exact ⟨i, hlen, hget, hset, hset ▸ sum_set_flip_in hget⟩

/-- Witness for `fader_mask_monotone_invariant` at the concrete mask
`[1, 0]` and one fade-out operation flipping index `0`. -/
theorem fader_mask_monotone_invariant_witness :
    ([0, 0] : List ℕ).sum ≤ ([1, 0] : List ℕ).sum :=
  ((fader_mask_monotone_invariant [1, 0] (by decide)).1
    [(1, [0])] [0, 0] (by decide)).1

/-- C3: for a fade-out `Fader`, a drawn step count exceeding the number of
remaining `1` entries flips them all and then raises the exhaustion
`RuntimeError` mid-loop, the mutations persisting (the `error` outcome
carries an all-zero mask of unchanged length); when the mask is already fully
flipped at the start of a call, a strict `__call__` raises the
`RuntimeError` (with the state unchanged) while `__next__` raises
`StopIteration` instead.  Symmetrically for fade-in with `0` entries. -/
theorem fader_exhaustion_behaviour (mask : List ℕ)
    (hm : ∀ x ∈ mask, x ≤ 1) :
    (∀ k draws, mask.sum < k →
        fadeSteps 1 0 k mask draws ≠ .divergent →
        ∃ m, fadeSteps 1 0 k mask draws = .error m
          ∧ m.sum = 0 ∧ m.length = mask.length)
    ∧ (∀ k draws, mask.length - mask.sum < k →
        fadeSteps 0 1 k mask draws ≠ .divergent →
        ∃ m, fadeSteps 0 1 k mask draws = .error m
          ∧ m.sum = m.length ∧ m.length = mask.length)
    ∧ (∀ (s : FaderState) kDraw draws, s.mask = mask →
        s.isFirstWindow = false → s.newMask = false → 1 ≤ kDraw →
        (s.faderType = .fadeOut → mask.sum = 0 →
            faderCall s kDraw draws = .runtimeError s
            ∧ faderNext s kDraw draws = .stopIteration)
        ∧ (s.faderType = .fadeIn → mask.sum = mask.length →
            faderCall s kDraw draws = .runtimeError s
            ∧ faderNext s kDraw draws = .stopIteration)) := by
  refine ⟨fun k draws hlt hnd => fadeSteps_out_overdraw hm hlt hnd,
          fun k draws hlt hnd => fadeSteps_in_overdraw hm hlt hnd, ?_⟩
  intro s kDraw draws hsm hfw hnm hk
  obtain ⟨c, ft, ms, mk0, fw, nm, um⟩ := s
  change mk0 = mask at hsm
  change fw = false at hfw
  change nm = false at hnm
  subst hsm hfw hnm
  constructor
  · intro hft hzero
    change ft = FaderType.fadeOut at hft
    subst hft
    have hnot : 1 ∉ mk0 := (one_not_mem_iff_sum_zero hm).mpr hzero
    obtain ⟨k, rfl⟩ : ∃ k, kDraw = k + 1 := ⟨kDraw - 1, by omega⟩
    have hsteps : fadeSteps 1 0 (k + 1) mk0 draws = .error mk0 := by
      simp only [fadeSteps, if_neg hnot]
    exact ⟨by simp [faderCall, hsteps],
           by simp [faderNext, faderDone, hnot]⟩
  · intro hft hfull
    change ft = FaderType.fadeIn at hft
    subst hft
    have hnot : 0 ∉ mk0 := (zero_not_mem_iff_sum_length hm).mpr hfull
    obtain ⟨k, rfl⟩ : ∃ k, kDraw = k + 1 := ⟨kDraw - 1, by omega⟩
    have hsteps : fadeSteps 0 1 (k + 1) mk0 draws = .error mk0 := by
      simp only [fadeSteps, if_neg hnot]
    exact ⟨by simp [faderCall, hsteps],
           by simp [faderNext, faderDone, hnot]⟩

/-- Witness for `fader_exhaustion_behaviour`: an all-zero fade-out mask makes
a strict call raise while iteration stops. -/
theorem fader_exhaustion_behaviour_witness :
    faderCall ⟨[⟨.note 0, 1⟩], .fadeOut, 1, [0], false, false, true⟩ 1 []
      = .runtimeError ⟨[⟨.note 0, 1⟩], .fadeOut, 1, [0], false, false, true⟩
    ∧ faderNext ⟨[⟨.note 0, 1⟩], .fadeOut, 1, [0], false, false, true⟩ 1 []
      = .stopIteration :=
  ((fader_exhaustion_behaviour [0] (by decide)).2.2
      ⟨[⟨.note 0, 1⟩], .fadeOut, 1, [0], false, false, true⟩ 1 []
      rfl rfl rfl (by decide)).1 rfl rfl

theorem fadeSteps_one_out {m d m' d' : List ℕ}
    (h : fadeSteps 1 0 1 m d = .ok m' d') :
    ∃ i, i < m.length ∧ m.getD i 2 = 1 ∧ m' = m.set i 0 := by
  simp only [fadeSteps] at h
  split at h
  · cases hp : pickFlip 1 0 m d with
    | none => rw [hp] at h; exact absurd h (by simp)
    | some md =>
        obtain ⟨a, b⟩ := md
        rw [hp] at h
        change FadeOutcome.ok a b = FadeOutcome.ok m' d' at h
        obtain ⟨rfl, rfl⟩ := FadeOutcome.ok.injEq .. ▸ h
        exact pickFlip_spec (by omega) hp
  · exact absurd h (by simp)

theorem faderCall_fadeOut_ok {s s' : FaderState} {k : ℕ} {d : List ℕ}
    {w : List Event} (hfw : s.isFirstWindow = false) (hnm : s.newMask = false)
    (hft : s.faderType = .fadeOut) (h : faderCall s k d = .window s' w) :
    ∃ m dd, fadeSteps 1 0 k s.mask d = .ok m dd
      ∧ s' = { s with mask := m } ∧ w = faderWindow { s with mask := m } := by
  obtain ⟨c, ft, ms, mk0, fw, nm, um⟩ := s
  change fw = false at hfw
  change nm = false at hnm
  change ft = FaderType.fadeOut at hft
  subst hfw hnm hft
  cases hfs : fadeSteps 1 0 k mk0 d with
  | ok m dd =>
      simp only [faderCall, Bool.not_false, Bool.and_self, if_true, hfs] at h
      simp only [FaderCallResult.window.injEq] at h
      exact ⟨m, dd, hfs ▸ rfl, h.1.symm, h.2.symm⟩
  | error m => simp [faderCall, hfs] at h
  | divergent => simp [faderCall, hfs] at h

theorem event_pitched_ne_rest {e : Event} (h : e.isPitched = true) :
    e.content ≠ .rest := by
  cases hc : e.content <;> simp [Event.isPitched, hc] at h ⊢

theorem maskToEvents_all_rest_iff :
    ∀ (c : List Event) (mask : List ℕ), (∀ e ∈ c, e.isPitched = true) →
    mask.length = c.length →
    (((maskToEvents mask c).all fun e => decide (e.content = .rest)) = true
      ↔ mask.sum = 0) := by
  intro c
  induction c with
  | nil =>
      intro mask _ hlen
      rw [List.length_nil, List.length_eq_zero] at hlen
      subst hlen
      simp [maskToEvents]
  | cons e es ih =>
      intro mask hp hlen
      have hpe : e.isPitched = true := hp e (List.mem_cons_self e es)
      cases mask with
      | nil => simp at hlen
      | cons b bs =>
          have hlen' : bs.length = es.length := by
            simpa using hlen
          have hrec := ih bs (fun x hx => hp x (List.mem_cons_of_mem e hx))
            hlen'
          simp only [maskToEvents, hpe, if_true, List.all_cons, List.sum_cons]
          by_cases hb : b = 0
          · subst hb
            simp only [if_pos rfl, decide_eq_true_eq, Event.isPitched]
            simp only [Bool.and_eq_true, decide_eq_true_eq]
            constructor
            · rintro ⟨_, hall⟩
              rw [hrec.mp hall]
            · intro hsum
              exact ⟨rfl, hrec.mpr (by omega)⟩
          · simp only [if_neg hb]
            constructor
            · intro hall
              rw [Bool.and_eq_true, decide_eq_true_eq] at hall
              exact absurd hall.1 (event_pitched_ne_rest hpe)
            · intro hsum; omega

theorem eq_four_zeros {m : List ℕ} (hlen : m.length = 4)
    (hz : ∀ x ∈ m, x = 0) : m = [0, 0, 0, 0] := by
  rcases m with _ | ⟨a, _ | ⟨b, _ | ⟨c, _ | ⟨e, _ | t⟩⟩⟩⟩ <;> simp_all

/-- The contents of the worked example: four pitched quarter notes
`c'4 d'4 e'4 f'4` in a single 4/4 measure. -/
def scenarioContents : List Event :=
  [⟨.note 0, 1/4⟩, ⟨.note 1, 1/4⟩, ⟨.note 2, 1/4⟩, ⟨.note 3, 1/4⟩]

/-- `Fader(contents)` with all defaults: `fader_type='out'`, `max_steps=1`,
`fade_on_first_call=False` (so `_is_first_window = True`), the mask reset to
all-`1`, `_new_mask` cleared at the end of `__init__`, and
`use_multimeasure_rest=True`. -/
def faderScenarioInit : FaderState :=
  ⟨scenarioContents, .fadeOut, 1, [1, 1, 1, 1], true, false, true⟩

theorem faderWindow_scenario_not_done {m : List ℕ} (hlen : m.length = 4)
    (hsum : m.sum ≠ 0) :
    faderWindow ⟨scenarioContents, .fadeOut, 1, m, false, false, true⟩
      = maskToEvents m scenarioContents := by
  show restsToMultimeasureRest (scenarioContents.map Event.dur).sum
        (maskToEvents m scenarioContents) = maskToEvents m scenarioContents
  rw [restsToMultimeasureRest, if_neg]
  rintro ⟨-, hall⟩
  exact hsum ((maskToEvents_all_rest_iff scenarioContents m (by decide)
    (by simpa [scenarioContents] using hlen)).mp hall)

/-- C7: for the default `Fader` (`fader_type='out'`, `max_steps=1`,
`fade_on_first_call=False`) over four pitched quarter notes, and for every
draw sequence on which the five calls return windows: the first call returns
the contents unchanged with the mask still all-`1`; each of the four
subsequent calls flips exactly one still-`1` mask entry to `0` (sums 3, 2, 1,
0) and returns the contents with exactly the masked ties replaced by
equal-duration rests; after the fourth advancing call the mask is all-zero
and the window is a single whole-measure rest. -/
theorem fader_default_scenario
    (d1 d2 d3 d4 d5 : List ℕ) (s1 s2 s3 s4 s5 : FaderState)
    (w1 w2 w3 w4 w5 : List Event)
    (h1 : faderCall faderScenarioInit 1 d1 = .window s1 w1)
    (h2 : faderCall s1 1 d2 = .window s2 w2)
    (h3 : faderCall s2 1 d3 = .window s3 w3)
    (h4 : faderCall s3 1 d4 = .window s4 w4)
    (h5 : faderCall s4 1 d5 = .window s5 w5) :
    (w1 = scenarioContents ∧ s1.mask = [1, 1, 1, 1])
    ∧ ((∃ j, j < 4 ∧ s1.mask.getD j 2 = 1 ∧ s2.mask = s1.mask.set j 0)
        ∧ s2.mask.sum = 3 ∧ w2 = maskToEvents s2.mask scenarioContents)
    ∧ ((∃ j, j < 4 ∧ s2.mask.getD j 2 = 1 ∧ s3.mask = s2.mask.set j 0)
        ∧ s3.mask.sum = 2 ∧ w3 = maskToEvents s3.mask scenarioContents)
    ∧ ((∃ j, j < 4 ∧ s3.mask.getD j 2 = 1 ∧ s4.mask = s3.mask.set j 0)
        ∧ s4.mask.sum = 1 ∧ w4 = maskToEvents s4.mask scenarioContents)
    ∧ ((∃ j, j < 4 ∧ s4.mask.getD j 2 = 1 ∧ s5.mask = s4.mask.set j 0)
        ∧ s5.mask = [0, 0, 0, 0] ∧ w5 = [⟨.rest, 1⟩]) := by
  have hred1 : faderCall faderScenarioInit 1 d1 = .window
      ⟨scenarioContents, .fadeOut, 1, [1, 1, 1, 1], false, false, true⟩
      scenarioContents := rfl
  rw [hred1] at h1
  obtain ⟨hs1, hw1⟩ := FaderCallResult.window.injEq .. ▸ h1
  subst hs1; subst hw1
  obtain ⟨m2, dd2, hfs2, rfl, rfl⟩ := faderCall_fadeOut_ok rfl rfl rfl h2
  have hm1 : ∀ x ∈ ([1, 1, 1, 1] : List ℕ), x ≤ 1 := by decide
  obtain ⟨g2a, g2b, g2c⟩ := fadeSteps_out_ok hm1 hfs2
  obtain ⟨m3, dd3, hfs3, rfl, rfl⟩ := faderCall_fadeOut_ok rfl rfl rfl h3
  obtain ⟨g3a, g3b, g3c⟩ := fadeSteps_out_ok g2c hfs3
  obtain ⟨m4, dd4, hfs4, rfl, rfl⟩ := faderCall_fadeOut_ok rfl rfl rfl h4
  obtain ⟨g4a, g4b, g4c⟩ := fadeSteps_out_ok g3c hfs4
  obtain ⟨m5, dd5, hfs5, rfl, rfl⟩ := faderCall_fadeOut_ok rfl rfl rfl h5
  obtain ⟨g5a, g5b, g5c⟩ := fadeSteps_out_ok g4c hfs5
  have hm2 : m2.sum = 3 := by simp at g2a; omega
  have hm3 : m3.sum = 2 := by omega
  have hm4 : m4.sum = 1 := by omega
  have hm5 : m5.sum = 0 := by omega
  have hl2 : m2.length = 4 := by simpa using g2b
  have hl3 : m3.length = 4 := by omega
  have hl4 : m4.length = 4 := by omega
  have hl5 : m5.length = 4 := by omega
  have hz5 : m5 = [0, 0, 0, 0] :=
    eq_four_zeros hl5 (List.sum_eq_zero_iff.mp hm5)
  refine ⟨⟨rfl, rfl⟩, ⟨?_, hm2, ?_⟩, ⟨?_, hm3, ?_⟩, ⟨?_, hm4, ?_⟩,
    ⟨?_, hz5, ?_⟩⟩
  · simpa using fadeSteps_one_out hfs2
  · exact faderWindow_scenario_not_done hl2 (by omega)
  · simpa [hl2] using fadeSteps_one_out hfs3
  · exact faderWindow_scenario_not_done hl3 (by omega)
  · simpa [hl3] using fadeSteps_one_out hfs4
  · exact faderWindow_scenario_not_done hl4 (by omega)
  · simpa [hl4] using fadeSteps_one_out hfs5
  · rw [hz5]
    show faderWindow ⟨scenarioContents, .fadeOut, 1, [0, 0, 0, 0], false,
      false, true⟩ = [⟨.rest, 1⟩]
    simp only [faderWindow, maskToEvents, restsToMultimeasureRest,
      scenarioContents, Event.isPitched]
    norm_num
    all_goals simp

/-- Witness for `fader_default_scenario`: the draw streams flipping indices
0, 1, 2, 3 in order end with the all-zero mask. -/
theorem fader_default_scenario_witness :
    FaderState.mask ⟨scenarioContents, .fadeOut, 1, [0, 0, 0, 0], false,
      false, true⟩ = [0, 0, 0, 0] :=
  (fader_default_scenario [] [0] [1] [2] [3]
    ⟨scenarioContents, .fadeOut, 1, [1, 1, 1, 1], false, false, true⟩
    ⟨scenarioContents, .fadeOut, 1, [0, 1, 1, 1], false, false, true⟩
    ⟨scenarioContents, .fadeOut, 1, [0, 0, 1, 1], false, false, true⟩
    ⟨scenarioContents, .fadeOut, 1, [0, 0, 0, 1], false, false, true⟩
    ⟨scenarioContents, .fadeOut, 1, [0, 0, 0, 0], false, false, true⟩
    scenarioContents
    (maskToEvents [0, 1, 1, 1] scenarioContents)
    (maskToEvents [0, 0, 1, 1] scenarioContents)
    (maskToEvents [0, 0, 0, 1] scenarioContents)
    (faderWindow ⟨scenarioContents, .fadeOut, 1, [0, 0, 0, 0], false, false,
      true⟩)
    rfl rfl rfl rfl rfl).2.2.2.2.2.1

/-- C10: after reassigning `contents` (which rebuilds the default mask) or
calling `reset_mask()` — both of which set `_new_mask` — the very next call
renders the current mask as-is without performing any fade step, even though
`_is_first_window` is `false`; the suppression lasts exactly one call: the
post-call state has both flags cleared, so the following call (fade-out case
shown) performs its drawn number of fade steps, strictly shrinking the mask
sum. -/
theorem fader_reset_suppresses_one_flip
    (s : FaderState) (c : List Event) (k k2 : ℕ) (d d2 : List ℕ)
    (hfw : s.isFirstWindow = false)
    (r : FaderState) (hr : r = faderSetContents s c ∨ r = faderResetMask s) :
    r.isFirstWindow = false
    ∧ r.newMask = true
    ∧ ∃ r', faderCall r k d = .window r' (faderWindow r)
        ∧ r'.mask = r.mask ∧ r'.newMask = false ∧ r'.isFirstWindow = false
        ∧ (r.faderType = .fadeOut → 1 ≤ k2 → (∀ x ∈ r'.mask, x ≤ 1) →
            ∀ s2 w2, faderCall r' k2 d2 = .window s2 w2 →
              s2.mask.sum + k2 = r'.mask.sum) := by
  obtain ⟨c0, ft, ms, mk0, fw, nm, um⟩ := s
  change fw = false at hfw
  subst hfw
  have hrfw : r.isFirstWindow = false ∧ r.newMask = true := by
    rcases hr with rfl | rfl
    · cases ft <;> exact ⟨rfl, rfl⟩
    · cases ft <;> exact ⟨rfl, rfl⟩
  refine ⟨hrfw.1, hrfw.2, ?_⟩
  obtain ⟨c1, ft1, ms1, mk1, fw1, nm1, um1⟩ := r
  obtain ⟨hfw1, hnm1⟩ := hrfw
  change fw1 = false at hfw1
  change nm1 = true at hnm1
  subst hfw1 hnm1
  refine ⟨⟨c1, ft1, ms1, mk1, false, false, um1⟩, rfl, rfl, rfl, rfl, ?_⟩
  intro hft hk2 hmk s2 w2 hcall
  change ft1 = FaderType.fadeOut at hft
  subst hft
  obtain ⟨m, dd, hfs, rfl, rfl⟩ := faderCall_fadeOut_ok rfl rfl rfl hcall
  exact (fadeSteps_out_ok hmk hfs).1

/-- Witness for `fader_reset_suppresses_one_flip`: a mid-life fade-out state
whose mask reset arms the one-call suppression flag. -/
theorem fader_reset_suppresses_one_flip_witness :
    (faderResetMask ⟨[⟨.note 0, 1/2⟩, ⟨.note 1, 1/2⟩], .fadeOut, 1, [0, 1],
      false, false, true⟩).newMask = true :=
  (fader_reset_suppresses_one_flip
    ⟨[⟨.note 0, 1/2⟩, ⟨.note 1, 1/2⟩], .fadeOut, 1, [0, 1], false, false,
      true⟩ [] 1 1 [] [0] rfl _ (Or.inr rfl)).2.1

/-! ## Hocketer (src/auxjad/core/Hocketer.py)

`_hocket_process` deep-copies the contents once per voice, draws a
selected-voice list for every logical tie with `random.choices`, and replaces
a tie by a rest in every voice whose index was not selected.  The later
per-voice passes (`remove_empty_tuplets`, `rewrite_meter`,
`rests_to_multimeasure_rest`) only re-notate rests and are the identity at
logical-tie granularity. -/

/-- Failures of the randomised selection: Python's `random.choices` raises
`ValueError` when the weights list length differs from the population size,
and `outOfDraws` models a draw stream too short to serve the call. -/
inductive HockErr where
  | weightMismatch : HockErr
  | outOfDraws : HockErr
deriving DecidableEq, Repr

/-- Model of `random.choices(list(range(n)), weights=w, k=k)`: the error
check is CPython's population/weights length check, performed at call time;
the draw stream supplies the chosen indices (the weights only shape their
distribution). -/
def randomChoices (n : ℕ) (w : List ℚ) (k : ℕ) (draws : List ℕ) :
    Except HockErr (List ℕ × List ℕ) :=
  if w.length ≠ n then .error .weightMismatch
  else if draws.length < k then .error .outOfDraws
  else .ok (draws.take k, draws.drop k)

/-- The non-`force_k_voices` branch of `_hocket_process`: one
`random.choices(..., k=k)` call per logical tie (`t` counts the ties). -/
def selectVoicesPlain (n : ℕ) (w : List ℚ) (k : ℕ) :
    ℕ → List ℕ → Except HockErr (List (List ℕ) × List ℕ)
  | 0, draws => .ok ([], draws)
  | t + 1, draws =>
      match randomChoices n w k draws with
      | .error e => .error e
      | .ok (item, rest) =>
          match selectVoicesPlain n w k t rest with
          | .error e => .error e
          | .ok (sels, rest') => .ok (item :: sels, rest')

/-- The `while len(item) < k` loop of the `force_k_voices` branch: each pass
calls `random.choices(..., k=k)` and keeps the first drawn index when it is
not already in `item`.  `fuel` bounds the number of passes (the Python loop
keeps drawing). -/
def collectDistinct (n : ℕ) (w : List ℚ) (k : ℕ) :
    ℕ → List ℕ → List ℕ → Except HockErr (List ℕ × List ℕ)
  | fuel, item, draws =>
      if item.length < k then
        match randomChoices n w k draws with
        | .error e => .error e
        | .ok (drawn, rest) =>
            match fuel with
            | 0 => .error .outOfDraws
            | fuel + 1 =>
                collectDistinct n w k fuel
                  (if drawn.headD 0 ∈ item then item
                   else item ++ [drawn.headD 0]) rest
      else .ok (item, draws)

/-- The `force_k_voices` branch: one distinct-collection loop per tie. -/
def selectVoicesForce (n : ℕ) (w : List ℚ) (k : ℕ) :
    ℕ → List ℕ → Except HockErr (List (List ℕ) × List ℕ)
  | 0, draws => .ok ([], draws)
  | t + 1, draws =>
      match collectDistinct n w k draws.length [] draws with
      | .error e => .error e
      | .ok (item, rest) =>
          match selectVoicesForce n w k t rest with
          | .error e => .error e
          | .ok (sels, rest') => .ok (item :: sels, rest')

/-- The replacement loop of `_hocket_process`: in voice `v`, the logical tie
at position `t` keeps its content when `v ∈ selected_voices[t]` and is
otherwise replaced by a rest of the same duration.  (The selected-voice list
always has one entry per tie; the `[]` case is unreachable.) -/
def applyVoice (v : ℕ) : List Event → List (List ℕ) → List Event
  | [], _ => []
  | e :: es, [] => e :: applyVoice v es []
  | e :: es, sel :: sels =>
      (if v ∈ sel then e else ⟨.rest, e.dur⟩) :: applyVoice v es sels

/-- The `n_voices` deep copies of the contents after selective silencing. -/
def hocketVoices (contents : List Event) (sel : List (List ℕ)) (n : ℕ) :
    List (List Event) :=
  (List.range n).map fun v => applyVoice v contents sel

/-- State of a `Hocketer` instance: the slots the embedded methods read or
write (`_contents`, `_n_voices`, `_weights`, `_k`, `_force_k_voices`,
`_voices`).  The re-notation flags tune external collaborators only. -/
structure HocketerState where
  contents : List Event
  nVoices : ℕ
  weights : List ℚ
  k : ℕ
  forceKVoices : Bool
  voices : Option (List (List Event))
deriving DecidableEq, Repr

/-- `Hocketer._hocket_process` (the body of `__call__`): draw the
selected-voice lists, build the silenced voices, store them in `_voices`. -/
def hocketProcess (s : HocketerState) (draws : List ℕ) :
    Except HockErr HocketerState :=
  match (if !s.forceKVoices then
          selectVoicesPlain s.nVoices s.weights s.k s.contents.length draws
         else selectVoicesForce s.nVoices s.weights s.k s.contents.length
          draws) with
  | .error e => .error e
  | .ok (sels, _) =>
      .ok { s with voices := some (hocketVoices s.contents sels s.nVoices) }

/-- The `weights` setter of `Hocketer`: the list must have the same length
as `n_voices` (`self.__len__()` returns `self._n_voices`), checked
synchronously at assignment. -/
def hocketerSetWeights (s : HocketerState) (w : List ℚ) :
    Except String HocketerState :=
  if w.length ≠ s.nVoices then
    .error "weights must have the same length as n_voices"
  else .ok { s with weights := w }

/-- The `n_voices` setter of `Hocketer`: checks positivity and the
`force_k_voices`/`k` constraint, and nothing else — in particular it does
not compare the stored weights list against the new voice count. -/
def hocketerSetNVoices (s : HocketerState) (n : ℕ) :
    Except String HocketerState :=
  if n < 1 then .error "n_voices must be greater than zero"
  else if s.forceKVoices && decide (n < s.k) then
    .error "n_voices cannot be smaller than k when force_k_voices is True"
  else .ok { s with nVoices := n }

theorem headD_mem {l : List ℕ} (h : l ≠ []) (d : ℕ) : l.headD d ∈ l := by
  cases l with
  | nil => exact absurd rfl h
  | cons a t => exact List.mem_cons_self a t

theorem randomChoices_ok {n k : ℕ} {w : List ℚ} {draws item rest : List ℕ}
    (h : randomChoices n w k draws = .ok (item, rest)) :
    w.length = n ∧ item.length = k ∧ (∀ v ∈ item, v ∈ draws)
      ∧ rest = draws.drop k := by
  rw [randomChoices] at h
  split at h
  · exact absurd h (by simp)
  · split at h
    · exact absurd h (by simp)
    · next hw hlen =>
        obtain ⟨rfl, rfl⟩ := Prod.mk.injEq .. ▸ (Except.ok.injEq .. ▸ h)
        refine ⟨by omega, ?_, fun v hv => List.take_subset k draws hv, rfl⟩
        rw [List.length_take]
        omega

theorem selectVoicesPlain_spec {n k : ℕ} {w : List ℚ} :
    ∀ {t : ℕ} {draws : List ℕ} {sels : List (List ℕ)} {rest : List ℕ},
    selectVoicesPlain n w k t draws = .ok (sels, rest) →
    sels.length = t
      ∧ ∀ item ∈ sels, item.length = k ∧ ∀ v ∈ item, v ∈ draws := by
  intro t
  induction t with
  | zero =>
      intro draws sels rest h
      obtain ⟨rfl, rfl⟩ := Prod.mk.injEq .. ▸ (Except.ok.injEq .. ▸ h)
      exact ⟨rfl, by simp⟩
  | succ t ih =>
      intro draws sels rest h
      rw [selectVoicesPlain] at h
      cases hc : randomChoices n w k draws with
      | error e => rw [hc] at h; exact absurd h (by simp)
      | ok ir =>
          obtain ⟨item, rest0⟩ := ir
          simp only [hc] at h
          cases hr : selectVoicesPlain n w k t rest0 with
          | error e => simp only [hr] at h; exact absurd h (by simp)
          | ok sr =>
              obtain ⟨sels0, rest1⟩ := sr
              simp only [hr] at h
              obtain ⟨rfl, rfl⟩ := Prod.mk.injEq .. ▸ (Except.ok.injEq .. ▸ h)
              obtain ⟨hw, hil, hiv, hrest⟩ := randomChoices_ok hc
              obtain ⟨hlen, hspec⟩ := ih hr
              refine ⟨by simp [hlen], ?_⟩
              intro it hit
              rcases List.mem_cons.mp hit with rfl | hmem
              · exact ⟨hil, hiv⟩
              · obtain ⟨h1, h2⟩ := hspec it hmem
                refine ⟨h1, fun v hv => ?_⟩
                have := h2 v hv
                rw [hrest] at this
                exact List.drop_subset k draws this

theorem collectDistinct_spec {n k : ℕ} {w : List ℚ} :
    ∀ {fuel : ℕ} {item draws item' rest : List ℕ}, item.length ≤ k →
    collectDistinct n w k fuel item draws = .ok (item', rest) →
    item'.length = k ∧ (∀ v ∈ item', v ∈ item ∨ v ∈ draws)
      ∧ ∀ v ∈ rest, v ∈ draws := by
  intro fuel
  induction fuel with
  | zero =>
      intro item draws item' rest hle h
      rw [collectDistinct] at h
      split at h
      · cases hc : randomChoices n w k draws with
        | error e => rw [hc] at h; exact absurd h (by simp)
        | ok ir =>
            obtain ⟨drawn, rest0⟩ := ir
            rw [hc] at h
            exact absurd h (by simp)
      · next hge =>
          obtain ⟨rfl, rfl⟩ := Prod.mk.injEq .. ▸ (Except.ok.injEq .. ▸ h)
          exact ⟨by omega, fun v hv => Or.inl hv, fun v hv => hv⟩
  | succ fuel ih =>
      intro item draws item' rest hle h
      rw [collectDistinct] at h
      split at h
      · next hlt =>
          cases hc : randomChoices n w k draws with
          | error e => rw [hc] at h; exact absurd h (by simp)
          | ok ir =>
              obtain ⟨drawn, rest0⟩ := ir
              rw [hc] at h
              change collectDistinct n w k fuel
                (if drawn.headD 0 ∈ item then item
                 else item ++ [drawn.headD 0]) rest0 = .ok (item', rest) at h
              obtain ⟨hw, hdl, hdv, hrest0⟩ := randomChoices_ok hc
              have hhead : drawn.headD 0 ∈ draws := by
                have hne : drawn ≠ [] := by
                  intro he; rw [he] at hdl; simp at hdl; omega
                exact hdv _ (headD_mem hne 0)
              have hle' : (if drawn.headD 0 ∈ item then item
                  else item ++ [drawn.headD 0]).length ≤ k := by
                split
                · omega
                · simp only [List.length_append, List.length_singleton]
                  omega
              obtain ⟨g1, g2, g3⟩ := ih hle' h
              refine ⟨g1, ?_, ?_⟩
              · intro v hv
                rcases g2 v hv with hvi | hvr
                · split at hvi
                  · exact Or.inl hvi
                  · rcases List.mem_append.mp hvi with hvi | hvi
                    · exact Or.inl hvi
                    · rw [List.mem_singleton] at hvi
                      subst hvi
                      exact Or.inr hhead
                · subst hrest0
                  exact Or.inr (List.drop_subset k draws hvr)
              · intro v hv
                subst hrest0
                exact List.drop_subset k draws (g3 v hv)
      · next hge =>
          obtain ⟨rfl, rfl⟩ := Prod.mk.injEq .. ▸ (Except.ok.injEq .. ▸ h)
          exact ⟨by omega, fun v hv => Or.inl hv, fun v hv => hv⟩

theorem selectVoicesForce_spec {n k : ℕ} {w : List ℚ} :
    ∀ {t : ℕ} {draws : List ℕ} {sels : List (List ℕ)} {rest : List ℕ},
    selectVoicesForce n w k t draws = .ok (sels, rest) →
    sels.length = t
      ∧ ∀ item ∈ sels, item.length = k ∧ ∀ v ∈ item, v ∈ draws := by
  intro t
  induction t with
  | zero =>
      intro draws sels rest h
      obtain ⟨rfl, rfl⟩ := Prod.mk.injEq .. ▸ (Except.ok.injEq .. ▸ h)
      exact ⟨rfl, by simp⟩
  | succ t ih =>
      intro draws sels rest h
      rw [selectVoicesForce] at h
      cases hc : collectDistinct n w k draws.length [] draws with
      | error e => rw [hc] at h; exact absurd h (by simp)
      | ok ir =>
          obtain ⟨item, rest0⟩ := ir
          simp only [hc] at h
          cases hr : selectVoicesForce n w k t rest0 with
          | error e => simp only [hr] at h; exact absurd h (by simp)
          | ok sr =>
              obtain ⟨sels0, rest1⟩ := sr
              simp only [hr] at h
              obtain ⟨rfl, rfl⟩ := Prod.mk.injEq .. ▸ (Except.ok.injEq .. ▸ h)
              obtain ⟨hil, hiv, hrest⟩ :=
                collectDistinct_spec (by simp) hc
              obtain ⟨hlen, hspec⟩ := ih hr
              refine ⟨by simp [hlen], ?_⟩
              intro it hit
              rcases List.mem_cons.mp hit with rfl | hmem
              · refine ⟨hil, fun v hv => ?_⟩
                rcases hiv v hv with hvi | hvi
                · simp at hvi
                · exact hvi
              · obtain ⟨h1, h2⟩ := hspec it hmem
                exact ⟨h1, fun v hv => hrest v (h2 v hv)⟩

theorem applyVoice_getD {v : ℕ} :
    ∀ (contents : List Event) (sels : List (List ℕ)) (t : ℕ),
    t < contents.length → sels.length = contents.length →
    (applyVoice v contents sels).getD t ⟨.rest, 0⟩
      = if v ∈ sels.getD t [] then contents.getD t ⟨.rest, 0⟩
        else ⟨.rest, (contents.getD t ⟨.rest, 0⟩).dur⟩ := by
  intro contents
  induction contents with
  | nil => intro sels t ht _; simp at ht
  | cons e es ih =>
      intro sels t ht hlen
      cases sels with
      | nil => simp at hlen
      | cons sel sl =>
          cases t with
          | zero =>
              simp only [applyVoice, List.getD_cons_zero]
          | succ t =>
              simp only [applyVoice, List.getD_cons_succ]
              exact ih sl t (by simpa using ht) (by simpa using hlen)

theorem hocketVoices_getD {n v : ℕ} (hv : v < n) (c : List Event)
    (sel : List (List ℕ)) :
    (hocketVoices c sel n).getD v [] = applyVoice v c sel := by
  rw [hocketVoices, List.getD_eq_getElem _ _ (by simpa using hv)]
  simp

/-- C4: on every successful `Hocketer` call with `k ≥ 1` (and hence with the
weights list matching `n_voices`, or `random.choices` would have raised),
every logical tie's selected-voice list is nonempty and names a valid voice,
so the tie sounds in at least one of the output voices; a tie is replaced by
an equal-duration rest exactly in the voices whose index was not selected. -/
theorem hocketer_every_tie_sounds
    (s : HocketerState) (draws : List ℕ) (s' : HocketerState)
    (hk : 1 ≤ s.k) (hd : ∀ x ∈ draws, x < s.nVoices)
    (h : hocketProcess s draws = .ok s') :
    ∃ sels : List (List ℕ),
      sels.length = s.contents.length
      ∧ s'.voices = some (hocketVoices s.contents sels s.nVoices)
      ∧ (∀ t, t < s.contents.length →
          ∃ v, v < s.nVoices ∧ v ∈ sels.getD t [])
      ∧ ∀ t, t < s.contents.length → ∀ v, v < s.nVoices →
          ((hocketVoices s.contents sels s.nVoices).getD v []).getD t
              ⟨.rest, 0⟩
            = if v ∈ sels.getD t [] then s.contents.getD t ⟨.rest, 0⟩
              else ⟨.rest, (s.contents.getD t ⟨.rest, 0⟩).dur⟩ := by
  rw [hocketProcess] at h
  cases hE : (if !s.forceKVoices then
      selectVoicesPlain s.nVoices s.weights s.k s.contents.length draws
    else selectVoicesForce s.nVoices s.weights s.k s.contents.length draws)
    with
  | error e => rw [hE] at h; exact absurd h (by simp)
  | ok sr =>
      obtain ⟨sels, rest⟩ := sr
      rw [hE] at h
      change Except.ok _ = Except.ok s' at h
      obtain rfl := (Except.ok.injEq .. ▸ h).symm
      have hspec : sels.length = s.contents.length
          ∧ ∀ item ∈ sels, item.length = s.k ∧ ∀ v ∈ item, v ∈ draws := by
        cases hfk : s.forceKVoices with
        | false =>
            rw [hfk] at hE
            simp only [Bool.not_false, if_true] at hE
            exact selectVoicesPlain_spec hE
        | true =>
            rw [hfk] at hE
            simp only [Bool.not_true, if_false] at hE
            exact selectVoicesForce_spec hE
      obtain ⟨hlen, hitems⟩ := hspec
      refine ⟨sels, hlen, rfl, ?_, ?_⟩
      · intro t ht
        have htl : t < sels.length := by omega
        have hmem : sels.getD t [] ∈ sels := by
          rw [List.getD_eq_getElem _ _ htl]
          exact List.getElem_mem htl
        obtain ⟨hilen, hiv⟩ := hitems _ hmem
        have hne : sels.getD t [] ≠ [] := by
          intro he; rw [he] at hilen; simp at hilen; omega
        obtain ⟨v, hv⟩ := List.exists_mem_of_ne_nil _ hne
        exact ⟨v, hd v (hiv v hv), hv⟩
      · intro t ht v hv
        rw [hocketVoices_getD hv]
        exact applyVoice_getD s.contents sels t ht hlen

/-- A concrete two-voice `Hocketer` over two quarter notes, used as witness
input. -/
def demoHocketer : HocketerState :=
  ⟨[⟨.note 0, 1/4⟩, ⟨.note 1, 1/4⟩], 2, [1, 1], 1, false, none⟩

/-- Witness for `hocketer_every_tie_sounds` at `demoHocketer` with the draw
stream `[0, 1]`. -/
theorem hocketer_every_tie_sounds_witness :
    ∃ sels : List (List ℕ),
      sels.length = demoHocketer.contents.length
      ∧ (HocketerState.voices { demoHocketer with
            voices := some (hocketVoices demoHocketer.contents [[0], [1]] 2) })
          = some (hocketVoices demoHocketer.contents sels demoHocketer.nVoices)
      ∧ (∀ t, t < demoHocketer.contents.length →
          ∃ v, v < demoHocketer.nVoices ∧ v ∈ sels.getD t [])
      ∧ ∀ t, t < demoHocketer.contents.length →
          ∀ v, v < demoHocketer.nVoices →
          ((hocketVoices demoHocketer.contents sels
              demoHocketer.nVoices).getD v []).getD t ⟨.rest, 0⟩
            = if v ∈ sels.getD t []
              then demoHocketer.contents.getD t ⟨.rest, 0⟩
              else ⟨.rest, (demoHocketer.contents.getD t ⟨.rest, 0⟩).dur⟩ :=
  hocketer_every_tie_sounds demoHocketer [0, 1] _ (by decide) (by decide) rfl

/-- Counterexample to C6: reassigning `n_voices` from 2 to 3 while the
stored weights list still has length 2 succeeds without any error — the
`n_voices` setter never compares the weights list against the new count, so
no configuration error is raised synchronously at that assignment. -/
theorem hocketer_n_voices_no_sync_error :
    hocketerSetNVoices demoHocketer 3 = .ok { demoHocketer with nVoices := 3 }
    ∧ demoHocketer.weights.length ≠ 3 :=
  ⟨rfl, by decide⟩

/-- C6 (amended): assigning a weights list whose length differs from
`n_voices` raises a configuration error synchronously, and a matching length
is stored as-is; but reassigning `n_voices` validates only positivity and
the `force_k_voices`/`k` bound — it accepts a count that no longer matches
the stored weights, and that mismatch surfaces only at the next call, where
`random.choices` rejects the weights (shown for the non-`force_k_voices`
mode over nonempty contents). -/
theorem hocketer_weights_validation
    (s : HocketerState) (w : List ℚ) (n : ℕ) :
    (w.length ≠ s.nVoices →
        hocketerSetWeights s w
          = .error "weights must have the same length as n_voices")
    ∧ (w.length = s.nVoices →
        hocketerSetWeights s w = .ok { s with weights := w })
    ∧ (1 ≤ n → (s.forceKVoices = true → s.k ≤ n) →
        hocketerSetNVoices s n = .ok { s with nVoices := n })
    ∧ (∀ draws, s.weights.length ≠ s.nVoices → s.forceKVoices = false →
        s.contents ≠ [] →
        hocketProcess s draws = .error .weightMismatch) := by
  refine ⟨?_, ?_, ?_, ?_⟩
  · intro hne
    rw [hocketerSetWeights, if_pos hne]
  · intro heq
    rw [hocketerSetWeights, if_neg (by omega)]
  · intro hn hfk
    rw [hocketerSetNVoices, if_neg (by omega)]
    rw [if_neg]
    simp only [Bool.and_eq_true, decide_eq_true_eq, not_and]
    intro hf
    have := hfk hf
    omega
  · intro draws hne hfk hcne
    obtain ⟨m, hm⟩ : ∃ m, s.contents.length = m + 1 := by
      cases hc : s.contents with
      | nil => exact absurd hc hcne
      | cons a t => exact ⟨t.length, by simp⟩
    have hrc : randomChoices s.nVoices s.weights s.k draws
        = .error .weightMismatch := by
      rw [randomChoices, if_pos hne]
    rw [hocketProcess, hfk]
    simp only [Bool.not_false, if_true, hm, selectVoicesPlain, hrc]

/-- Witness for `hocketer_weights_validation`: after growing `demoHocketer`
to three voices, the stale two-entry weights list makes the next call fail
with the weights/population mismatch. -/
theorem hocketer_weights_validation_witness :
    hocketProcess { demoHocketer with nVoices := 3 } []
      = .error .weightMismatch :=
  (hocketer_weights_validation { demoHocketer with nVoices := 3 }
    [1, 1, 1] 3).2.2.2 [] (by decide) rfl (by decide)

/-! ## PitchRandomiser (src/auxjad/core/PitchRandomiser.py)

`_rewrite_pitches` walks the logical ties of a copy of the contents: a note
tie gets one pitch drawn from the pool, a chord tie with `m` note heads gets
`m` distinct pitches (retrying duplicate draws) unless the pool is smaller
than `m`, in which case the whole pool becomes the chord; rests are left
untouched. -/

/-- `PitchRandomiser._pick_random_pitch` in plain (non-Tenney) mode:
`random.choices(self._pitches, weights=self._weights)[0]`.  The draw stream
supplies the pool index (the weights only shape the distribution); `none`
models an exhausted stream. -/
def pickRandomPitch (pool : List ℕ) (draws : List ℕ) :
    Option (ℕ × List ℕ) :=
  match draws with
  | [] => none
  | i :: d => some (pool.getD i 0, d)

/-- The `while len(pitches) < chord_n` retry loop of `_rewrite_pitches`:
draw a pitch, append it when it is not already collected. -/
def pickDistinctPitches (pool : List ℕ) (m : ℕ) :
    List ℕ → List ℕ → Option (List ℕ × List ℕ)
  | acc, [] => if acc.length < m then none else some (acc, [])
  | acc, i :: d =>
      if acc.length < m then
        pickDistinctPitches pool m
          (if pool.getD i 0 ∈ acc then acc else acc ++ [pool.getD i 0]) d
      else some (acc, i :: d)

/-- The per-logical-tie body of `_rewrite_pitches`: notes get one drawn
pitch (assigned to every leaf of the tie — a tie is one event here), chords
with `chord_n > len(pitches)` fall back to the entire pool, other chords get
`chord_n` distinct drawn pitches, rests are untouched. -/
def rewriteTie (pool : List ℕ) (e : Event) (draws : List ℕ) :
    Option (Event × List ℕ) :=
  match e.content with
  | .rest => some (e, draws)
  | .note _ =>
      match pickRandomPitch pool draws with
      | none => none
      | some (p, d) => some (⟨.note p, e.dur⟩, d)
  | .chord ps =>
      if ps.length > pool.length then some (⟨.chord pool, e.dur⟩, draws)
      else
        match pickDistinctPitches pool ps.length [] draws with
        | none => none
        | some (sel, d) => some (⟨.chord sel, e.dur⟩, d)

/-- The logical-tie loop of `_rewrite_pitches` over the whole contents. -/
def rewritePitches (pool : List ℕ) :
    List Event → List ℕ → Option (List Event × List ℕ)
  | [], draws => some ([], draws)
  | e :: es, draws =>
      match rewriteTie pool e draws with
      | none => none
      | some (e', d) =>
          match rewritePitches pool es d with
          | none => none
          | some (es', d') => some (e' :: es', d')

theorem pickDistinctPitches_spec {pool : List ℕ} {m : ℕ} :
    ∀ {draws acc out rest : List ℕ}, acc.length ≤ m → acc.Nodup →
    (∀ p ∈ acc, p ∈ pool) → (∀ x ∈ draws, x < pool.length) →
    pickDistinctPitches pool m acc draws = some (out, rest) →
    out.length = m ∧ out.Nodup ∧ (∀ p ∈ out, p ∈ pool)
      ∧ ∀ x ∈ rest, x < pool.length := by
  intro draws
  induction draws with
  | nil =>
      intro acc out rest hle hnd hmem hd h
      rw [pickDistinctPitches] at h
      split at h
      · exact absurd h (by simp)
      · obtain ⟨rfl, rfl⟩ := Prod.mk.injEq .. ▸ (Option.some.injEq .. ▸ h)
        exact ⟨by omega, hnd, hmem, by simp⟩
  | cons i d ih =>
      intro acc out rest hle hnd hmem hd h
      rw [pickDistinctPitches] at h
      split at h
      · next hlt =>
          have hi : i < pool.length := hd i (List.mem_cons_self i d)
          have hp : pool.getD i 0 ∈ pool := by
            rw [List.getD_eq_getElem _ _ hi]
            exact List.getElem_mem hi
          have hd' : ∀ x ∈ d, x < pool.length :=
            fun x hx => hd x (List.mem_cons_of_mem i hx)
          by_cases hin : pool.getD i 0 ∈ acc
          · rw [if_pos hin] at h
            exact ih (by omega) hnd hmem hd' h
          · rw [if_neg hin] at h
            refine ih ?_ ?_ ?_ hd' h
            · simp only [List.length_append, List.length_singleton]; omega
            · exact List.Nodup.append hnd (List.nodup_singleton _)
                (by simpa using hin)
            · intro p hp'
              rcases List.mem_append.mp hp' with hp' | hp'
              · exact hmem p hp'
              · rw [List.mem_singleton] at hp'
                exact hp' ▸ hp
      · obtain ⟨rfl, rfl⟩ := Prod.mk.injEq .. ▸ (Option.some.injEq .. ▸ h)
        exact ⟨by omega, hnd, hmem, hd⟩

theorem rewriteTie_spec {pool : List ℕ} {e e' : Event} {draws rest : List ℕ}
    (hd : ∀ x ∈ draws, x < pool.length)
    (h : rewriteTie pool e draws = some (e', rest)) :
    e'.dur = e.dur
    ∧ (∀ x ∈ rest, x < pool.length)
    ∧ (e.content = .rest → e' = e)
    ∧ (∀ p0, e.content = .note p0 → ∃ p ∈ pool, e'.content = .note p)
    ∧ ∀ ps, e.content = .chord ps →
        (ps.length ≤ pool.length →
          ∃ sel, e'.content = .chord sel ∧ sel.length = ps.length
            ∧ sel.Nodup ∧ ∀ p ∈ sel, p ∈ pool)
        ∧ (pool.length < ps.length → e'.content = .chord pool) := by
  obtain ⟨ec, edur⟩ := e
  cases ec with
  | rest =>
      obtain ⟨rfl, rfl⟩ := Prod.mk.injEq .. ▸ (Option.some.injEq .. ▸ h)
      exact ⟨rfl, hd, fun _ => rfl, by simp, by simp⟩
  | note p0 =>
      rw [rewriteTie] at h
      cases draws with
      | nil => exact absurd h (by simp [pickRandomPitch])
      | cons i d =>
          change some (⟨.note (pool.getD i 0), edur⟩, d) = some (e', rest)
            at h
          obtain ⟨rfl, rfl⟩ := Prod.mk.injEq .. ▸ (Option.some.injEq .. ▸ h)
          have hi : i < pool.length := hd i (List.mem_cons_self i d)
          refine ⟨rfl, fun x hx => hd x (List.mem_cons_of_mem i hx),
            by simp, ?_, by simp⟩
          intro q hq
          refine ⟨pool.getD i 0, ?_, rfl⟩
          rw [List.getD_eq_getElem _ _ hi]
          exact List.getElem_mem hi
  | chord ps =>
      simp only [rewriteTie] at h
      split at h
      · next hgt =>
          obtain ⟨rfl, rfl⟩ := Prod.mk.injEq .. ▸ (Option.some.injEq .. ▸ h)
          refine ⟨rfl, hd, by simp, by simp, ?_⟩
          intro ps' hps'
          obtain rfl : ps = ps' := by simpa using hps'
          exact ⟨fun hle => absurd hle (by omega), fun _ => rfl⟩
      · next hle =>
          cases hp : pickDistinctPitches pool ps.length [] draws with
          | none => rw [hp] at h; exact absurd h (by simp)
          | some sr =>
              obtain ⟨sel, d⟩ := sr
              rw [hp] at h
              change some (⟨.chord sel, edur⟩, d) = some (e', rest) at h
              obtain ⟨rfl, rfl⟩ :=
                Prod.mk.injEq .. ▸ (Option.some.injEq .. ▸ h)
              obtain ⟨g1, g2, g3, g4⟩ := pickDistinctPitches_spec
                (by simp) List.nodup_nil (by simp) hd hp
              refine ⟨rfl, g4, by simp, by simp, ?_⟩
              intro ps' hps'
              obtain rfl : ps = ps' := by simpa using hps'
              exact ⟨fun _ => ⟨sel, rfl, g1, g2, g3⟩,
                fun hlt => absurd hlt (by omega)⟩

/-- C8: on every pass of `_rewrite_pitches` (the body of every
`PitchRandomiser` call), rhythm is preserved tie-for-tie; each single-pitch
tie receives one pitch drawn from the pool (a logical tie is one event, so
the pitch covers all its leaves); each chord tie with `m` note heads
receives `m` distinct pool pitches unless the pool has fewer than `m`
members, in which case the entire pool becomes the chord's pitch content;
rest ties are left untouched. -/
theorem pitch_randomiser_rewrite (pool : List ℕ) :
    ∀ (contents : List Event) (draws : List ℕ) (out : List Event)
      (rest : List ℕ), (∀ x ∈ draws, x < pool.length) →
    rewritePitches pool contents draws = some (out, rest) →
    out.length = contents.length
    ∧ ∀ t, t < contents.length →
        (out.getD t ⟨.rest, 0⟩).dur = (contents.getD t ⟨.rest, 0⟩).dur
        ∧ ((contents.getD t ⟨.rest, 0⟩).content = .rest →
            out.getD t ⟨.rest, 0⟩ = contents.getD t ⟨.rest, 0⟩)
        ∧ (∀ p0, (contents.getD t ⟨.rest, 0⟩).content = .note p0 →
            ∃ p ∈ pool, (out.getD t ⟨.rest, 0⟩).content = .note p)
        ∧ ∀ ps, (contents.getD t ⟨.rest, 0⟩).content = .chord ps →
            (ps.length ≤ pool.length →
              ∃ sel, (out.getD t ⟨.rest, 0⟩).content = .chord sel
                ∧ sel.length = ps.length ∧ sel.Nodup
                ∧ ∀ p ∈ sel, p ∈ pool)
            ∧ (pool.length < ps.length →
              (out.getD t ⟨.rest, 0⟩).content = .chord pool) := by
  intro contents
  induction contents with
  | nil =>
      intro draws out rest hd h
      obtain ⟨rfl, rfl⟩ := Prod.mk.injEq .. ▸ (Option.some.injEq .. ▸ h)
      exact ⟨rfl, fun t ht => by simp at ht⟩
  | cons e es ih =>
      intro draws out rest hd h
      rw [rewritePitches] at h
      cases ht : rewriteTie pool e draws with
      | none => rw [ht] at h; exact absurd h (by simp)
      | some ed =>
          obtain ⟨e', d⟩ := ed
          simp only [ht] at h
          cases hr : rewritePitches pool es d with
          | none => rw [hr] at h; exact absurd h (by simp)
          | some sr =>
              obtain ⟨es', d'⟩ := sr
              simp only [hr] at h
              obtain ⟨rfl, rfl⟩ :=
                Prod.mk.injEq .. ▸ (Option.some.injEq .. ▸ h)
              obtain ⟨fdur, frest, fr, fn, fc⟩ := rewriteTie_spec hd ht
              obtain ⟨hlen, hT⟩ := ih d es' d' frest hr
              refine ⟨by simp [hlen], ?_⟩
              intro t ht'
              cases t with
              | zero =>
                  simp only [List.getD_cons_zero]
                  exact ⟨fdur, fun hc0 => fr hc0, fn, fc⟩
              | succ t =>
                  simp only [List.getD_cons_succ]
                  exact hT t (by simpa using ht')

/-- The witness pool and contents for `pitch_randomiser_rewrite`: a note, a
two-note chord, a rest, and a four-note chord over a three-pitch pool. -/
def demoRandomiserContents : List Event :=
  [⟨.note 0, 1/4⟩, ⟨.chord [1, 2], 1/4⟩, ⟨.rest, 1/4⟩,
   ⟨.chord [0, 1, 2, 3], 1/4⟩]

/-- Witness for `pitch_randomiser_rewrite` with pool `[5, 7, 9]` and draw
stream `[0, 1, 1, 2]`. -/
theorem pitch_randomiser_rewrite_witness :
    ([⟨.note 5, 1/4⟩, ⟨.chord [7, 9], 1/4⟩, ⟨.rest, 1/4⟩,
      ⟨.chord [5, 7, 9], 1/4⟩] : List Event).length
      = demoRandomiserContents.length :=
  (pitch_randomiser_rewrite [5, 7, 9] demoRandomiserContents [0, 1, 1, 2]
    [⟨.note 5, 1/4⟩, ⟨.chord [7, 9], 1/4⟩, ⟨.rest, 1/4⟩,
     ⟨.chord [5, 7, 9], 1/4⟩] [] (by decide) rfl).1

/-- State of a `PitchRandomiser` instance: the slots read or written by
`__call__`/`_randomise` (`_contents`, `_pitches`, `_is_first_window`,
`_processs_on_first_call`, `_current_window`). -/
structure RandomiserState where
  contents : List Event
  pitches : List ℕ
  isFirstWindow : Bool
  processOnFirstCall : Bool
  currentWindow : List Event
deriving DecidableEq, Repr

/-- `PitchRandomiser.__call__` (= `_randomise` + reading the window): when
`_is_first_window` is set and processing on the first call is disabled, only
the flag is cleared; otherwise `_rewrite_pitches` runs on a copy of the
contents and its result becomes `_current_window`. -/
def randomiserCall (s : RandomiserState) (draws : List ℕ) :
    Option RandomiserState :=
  if s.isFirstWindow && !s.processOnFirstCall then
    some { s with isFirstWindow := false }
  else
    match rewritePitches s.pitches s.contents draws with
    | none => none
    | some (out, _) =>
        some { s with isFirstWindow := false, currentWindow := out }

/-- Repeated `Fader.__call__` under a list of per-call draws; a raised
`RuntimeError` leaves the state of the raise, a divergent retry loop stops
the run. -/
def faderIterate (s : FaderState) : List (ℕ × List ℕ) → FaderState
  | [] => s
  | (k, d) :: ops =>
      match faderCall s k d with
      | .window s' _ => faderIterate s' ops
      | .runtimeError s' => faderIterate s' ops
      | .divergent => s

/-- Repeated `Hocketer.__call__`; a raised selection error leaves the state
unchanged (the exception propagates before `_voices` is reassigned). -/
def hocketerIterate (s : HocketerState) : List (List ℕ) → HocketerState
  | [] => s
  | d :: ops =>
      match hocketProcess s d with
      | .ok s' => hocketerIterate s' ops
      | .error _ => s

/-- Repeated `PitchRandomiser.__call__`. -/
def randomiserIterate (s : RandomiserState) : List (List ℕ) → RandomiserState
  | [] => s
  | d :: ops =>
      match randomiserCall s d with
      | some s' => randomiserIterate s' ops
      | none => s

theorem faderCall_contents_eq {s : FaderState} {k : ℕ} {d : List ℕ} :
    (∀ s' w, faderCall s k d = .window s' w → s'.contents = s.contents)
    ∧ ∀ s', faderCall s k d = .runtimeError s' → s'.contents = s.contents := by
  rw [faderCall]
  split
  · cases hft : s.faderType with
    | fadeOut =>
        cases hfs : fadeSteps 1 0 k s.mask d with
        | ok m dd =>
            simp only [hft, hfs]
            exact ⟨fun s' w h => by
                obtain ⟨rfl, -⟩ := FaderCallResult.window.injEq .. ▸ h.symm
                rfl,
              fun s' h => by simp at h⟩
        | error m =>
            simp only [hft, hfs]
            exact ⟨fun s' w h => by simp at h,
              fun s' h => by
                obtain rfl := (FaderCallResult.runtimeError.injEq .. ▸ h).symm
                rfl⟩
        | divergent =>
            simp only [hft, hfs]
            exact ⟨fun s' w h => by simp at h, fun s' h => by simp at h⟩
    | fadeIn =>
        cases hfs : fadeSteps 0 1 k s.mask d with
        | ok m dd =>
            simp only [hft, hfs]
            exact ⟨fun s' w h => by
                obtain ⟨rfl, -⟩ := FaderCallResult.window.injEq .. ▸ h.symm
                rfl,
              fun s' h => by simp at h⟩
        | error m =>
            simp only [hft, hfs]
            exact ⟨fun s' w h => by simp at h,
              fun s' h => by
                obtain rfl := (FaderCallResult.runtimeError.injEq .. ▸ h).symm
                rfl⟩
        | divergent =>
            simp only [hft, hfs]
            exact ⟨fun s' w h => by simp at h, fun s' h => by simp at h⟩
  · exact ⟨fun s' w h => by
        obtain ⟨rfl, -⟩ := FaderCallResult.window.injEq .. ▸ h.symm
        rfl,
      fun s' h => by simp at h⟩

theorem hocketProcess_contents_eq {s s' : HocketerState} {d : List ℕ}
    (h : hocketProcess s d = .ok s') : s'.contents = s.contents := by
  rw [hocketProcess] at h
  cases hE : (if !s.forceKVoices then
      selectVoicesPlain s.nVoices s.weights s.k s.contents.length d
    else selectVoicesForce s.nVoices s.weights s.k s.contents.length d) with
  | error e => rw [hE] at h; exact absurd h (by simp)
  | ok sr =>
      obtain ⟨sels, rest⟩ := sr
      rw [hE] at h
      change Except.ok _ = Except.ok s' at h
      obtain rfl := (Except.ok.injEq .. ▸ h).symm
      rfl

theorem randomiserCall_contents_eq {s s' : RandomiserState} {d : List ℕ}
    (h : randomiserCall s d = some s') : s'.contents = s.contents := by
  rw [randomiserCall] at h
  split at h
  · obtain rfl := (Option.some.injEq .. ▸ h).symm
    rfl
  · cases hr : rewritePitches s.pitches s.contents d with
    | none => rw [hr] at h; exact absurd h (by simp)
    | some sr =>
        obtain ⟨out, rest⟩ := sr
        simp only [hr] at h
        obtain rfl := (Option.some.injEq .. ▸ h).symm
        rfl

/-- C9: the stored contents are a frame of every advancing call — each call
works on a fresh copy, so after any number of `Fader`, `Hocketer` or
`PitchRandomiser` calls (windows rendered, voices assigned, pitches
rewritten, errors raised) the instance's contents are exactly the contents
that were ingested; only the mask/flags, the voices cache, or the current
window change. -/
theorem component_calls_preserve_contents :
    (∀ (s : FaderState) (ops : List (ℕ × List ℕ)),
        (faderIterate s ops).contents = s.contents)
    ∧ (∀ (s : HocketerState) (ops : List (List ℕ)),
        (hocketerIterate s ops).contents = s.contents)
    ∧ ∀ (s : RandomiserState) (ops : List (List ℕ)),
        (randomiserIterate s ops).contents = s.contents := by
  refine ⟨fun s ops => ?_, fun s ops => ?_, fun s ops => ?_⟩
  · induction ops generalizing s with
    | nil => rfl
    | cons op rest ih =>
        obtain ⟨k, d⟩ := op
        rw [faderIterate]
        cases hc : faderCall s k d with
        | window s' w =>
            rw [ih s', faderCall_contents_eq.1 s' w hc]
        | runtimeError s' =>
            rw [ih s', faderCall_contents_eq.2 s' hc]
        | divergent => rfl
  · induction ops generalizing s with
    | nil => rfl
    | cons d rest ih =>
        rw [hocketerIterate]
        cases hc : hocketProcess s d with
        | ok s' => rw [ih s', hocketProcess_contents_eq hc]
        | error e => rfl
  · induction ops generalizing s with
    | nil => rfl
    | cons d rest ih =>
        rw [randomiserIterate]
        cases hc : randomiserCall s d with
        | some s' => rw [ih s', randomiserCall_contents_eq hc]
        | none => rfl

/-! ## WindowLooper (src/auxjad/core/WindowLooper.py)

The looper advances a duration-valued head over the contents and slices a
window of `window_size` at each call.  Durations are rationals in whole
notes.  The shared base class `_LooperParent` is not among the sources;
its call protocol is modelled from the spec (§4.1), while `_done`,
`_slice_contents` and the property setters are translated from
`WindowLooper` itself. -/

/-- State of a `WindowLooper`: `_contents` (at logical-tie granularity),
`_contents_length` (total duration, set by the `contents` setter),
`_head_position`, the duration of `_window_size`, `_step_size`,
`_max_steps`, `_repetition_chance`, `_forward_bias`,
`_processs_on_first_call`, `_is_first_window`, `_fill_with_rests`. -/
structure LooperState where
  contents : List Event
  contentsLength : ℚ
  headPosition : ℚ
  windowSize : ℚ
  stepSize : ℚ
  maxSteps : ℕ
  repetitionChance : ℚ
  forwardBias : ℚ
  processOnFirstCall : Bool
  isFirstWindow : Bool
  fillWithRests : Bool
deriving DecidableEq, Repr

/-- `WindowLooper._done` (lines 1186-1199), translated verbatim: with
`fill_with_rests` the head must stay inside `[0, contents_length)`; without
it the code compares the head against `contents_length - head_position`. -/
def looperDone (s : LooperState) : Bool :=
  if s.fillWithRests then
    decide (s.headPosition ≥ s.contentsLength ∨ s.headPosition < 0)
  else
    decide (s.headPosition ≥ s.contentsLength - s.headPosition
      ∨ s.headPosition < 0)

/-- The `head_position` setter of `WindowLooper`: after the type check, the
only range check is `head_position >= contents_length`; accepted values set
`_is_first_window` and the head. -/
def looperSetHeadPosition (s : LooperState) (h : ℚ) :
    Except String LooperState :=
  if h ≥ s.contentsLength then
    .error "head_position must be smaller than the length of contents"
  else .ok { s with isFirstWindow := true, headPosition := h }

/-- The splitting-and-collecting core of `WindowLooper._slice_contents` at
logical-tie granularity: walking the contents with a running offset, each
event is clipped to the span `[lo, hi)` (a leaf straddling a boundary is
split, the fragment inside the window keeping its pitch, the boundary ties
detached). -/
def clipEvents (lo hi : ℚ) : ℚ → List Event → List Event
  | _, [] => []
  | off, e :: es =>
      (if max off lo < min (off + e.dur) hi
       then [⟨e.content, min (off + e.dur) hi - max off lo⟩] else [])
      ++ clipEvents lo hi (off + e.dur) es

/-- `WindowLooper._slice_contents`: clip the contents to
`[head, head + window_size)` and, when the collected span is shorter than
the window (the axis end was reached), append a rest for the missing
duration — the source pads unconditionally; `fill_with_rests` only enters
`_done`. -/
def sliceContents (head window : ℚ) (contents : List Event) : List Event :=
  let inner := clipEvents head (head + window) 0 contents
  inner ++ (if (inner.map Event.dur).sum < window
            then [⟨.rest, window - (inner.map Event.dur).sum⟩] else [])

/-- The outcomes a call draws from the pseudo-random source: the repetition
Bernoulli trial and the per-elementary-step directions (`true` = forward);
the drawn step count is `dirs.length`. -/
structure MoveDraw where
  repeatDraw : Bool
  dirs : List Bool
deriving DecidableEq, Repr

/-- Modelled from the spec: the constraints §4.1 places on the drawn values
— with `repetition_chance` 0 the repetition trial never fires, the step
count is uniform in `1..max_steps`, and with `forward_bias` 1 (resp. 0)
every direction is forward (resp. backward). -/
def MoveDraw.valid (s : LooperState) (m : MoveDraw) : Prop :=
  (s.repetitionChance = 0 → m.repeatDraw = false)
  ∧ 1 ≤ m.dirs.length ∧ m.dirs.length ≤ s.maxSteps
  ∧ (s.forwardBias = 1 → ∀ b ∈ m.dirs, b = true)
  ∧ (s.forwardBias = 0 → ∀ b ∈ m.dirs, b = false)

/-- Modelled from the spec: the advance/emit operation of the missing
`_LooperParent` base class (§4.1): on the first call with processing
disabled the window at the current head is emitted and the flag cleared
without moving; otherwise the repetition trial may freeze the head for this
call, else the head moves one `step_size` per drawn elementary step in the
drawn direction; if the child's `_done` holds after the move the call fails
with the exhaustion error, otherwise the window is sliced at the new head
(`WindowLooper._slice_contents`). -/
def looperCall (s : LooperState) (m : MoveDraw) :
    Except String (LooperState × List Event) :=
  let s' :=
    if s.isFirstWindow && !s.processOnFirstCall then
      { s with isFirstWindow := false }
    else if m.repeatDraw then { s with isFirstWindow := false }
    else { s with
      headPosition := s.headPosition
        + (m.dirs.map fun b => if b then s.stepSize else -s.stepSize).sum,
      isFirstWindow := false }
  if looperDone s' then .error "contents has been exhausted"
  else .ok (s', sliceContents s'.headPosition s'.windowSize s'.contents)

/-- The claims' looper over `c'4 d'4 e'4 f'4` with `window_size (2, 4)`,
`step_size (1, 4)`, `max_steps 1`, `repetition_chance 0.0`,
`forward_bias 1.0`, `processs_on_first_call False`, parameterised by
`fill_with_rests`, the first-window flag, and the head position. -/
def looperScenarioState (fill first : Bool) (head : ℚ) : LooperState :=
  ⟨scenarioContents, 1, head, 1/2, 1/4, 1, 0, 1, false, first, fill⟩

/-- C1, settled against the code: over `[C, D, E, F]` with a two-element
window, unit step, `forward_bias` 1.0 and head 0 (the deterministic draw
`⟨false, [true]⟩` being the only spec-valid one), the code yields `[C,D]`,
`[D,E]`, `[E,F]`, then `[F, rest]` and exhaustion when `fill_with_rests` is
`True`; but with `fill_with_rests` set to `False` the third call already
raises the exhaustion error — `_done`'s `contents_length - head_position`
threshold fires at head `1/2` — even though the window `[E,F]` starting
there still fits wholly inside the contents, so the claimed `[E,F]` window
is never produced on that branch. -/
theorem windowlooper_scenario_code_behaviour :
    MoveDraw.valid (looperScenarioState false true 0) ⟨false, [true]⟩
    ∧ looperCall (looperScenarioState false true 0) ⟨false, [true]⟩
        = .ok (looperScenarioState false false 0,
            [⟨.note 0, 1/4⟩, ⟨.note 1, 1/4⟩])
    ∧ looperCall (looperScenarioState false false 0) ⟨false, [true]⟩
        = .ok (looperScenarioState false false (1/4),
            [⟨.note 1, 1/4⟩, ⟨.note 2, 1/4⟩])
    ∧ looperCall (looperScenarioState false false (1/4)) ⟨false, [true]⟩
        = .error "contents has been exhausted"
    ∧ looperDone (looperScenarioState false false (1/2)) = true
    ∧ (1 : ℚ)/2 + 1/2 ≤ 1
    ∧ looperCall (looperScenarioState true true 0) ⟨false, [true]⟩
        = .ok (looperScenarioState true false 0,
            [⟨.note 0, 1/4⟩, ⟨.note 1, 1/4⟩])
    ∧ looperCall (looperScenarioState true false 0) ⟨false, [true]⟩
        = .ok (looperScenarioState true false (1/4),
            [⟨.note 1, 1/4⟩, ⟨.note 2, 1/4⟩])
    ∧ looperCall (looperScenarioState true false (1/4)) ⟨false, [true]⟩
        = .ok (looperScenarioState true false (1/2),
            [⟨.note 2, 1/4⟩, ⟨.note 3, 1/4⟩])
    ∧ looperCall (looperScenarioState true false (1/2)) ⟨false, [true]⟩
        = .ok (looperScenarioState true false (3/4),
            [⟨.note 3, 1/4⟩, ⟨.rest, 1/4⟩])
    ∧ looperCall (looperScenarioState true false (3/4)) ⟨false, [true]⟩
        = .error "contents has been exhausted" := by
  refine ⟨⟨fun _ => rfl, by norm_num, by norm_num [looperScenarioState],
    fun _ => by simp, fun h => absurd h (by norm_num [looperScenarioState])⟩,
    ?_, ?_, ?_, ?_, by norm_num, ?_, ?_, ?_, ?_, ?_⟩
  all_goals
    norm_num [looperCall, looperDone, sliceContents, clipEvents,
      looperScenarioState, scenarioContents, max_def, min_def]

/-- Counterexample to C5: assigning the negative head position `-1/4` to the
scenario looper succeeds — the setter's only range check is against the
upper bound `contents_length`, so no error is raised at the point of
assignment. -/
theorem looper_negative_head_accepted :
    looperSetHeadPosition (looperScenarioState true true 0) (-(1/4))
      = .ok (looperScenarioState true true (-(1/4))) := by
  norm_num [looperSetHeadPosition, looperScenarioState]

/-- C5 (amended): the `head_position` setter enforces only the upper bound —
`head_position ≥ contents_length` raises a `ValueError` immediately, any
smaller value (negative included) is stored; a negative head instead makes
the next call (with default first-call behaviour) raise the exhaustion
error, since `_done` treats a negative head as exhausted. -/
theorem looper_head_position_validation (s : LooperState) (h : ℚ) :
    (h ≥ s.contentsLength →
        looperSetHeadPosition s h
          = .error "head_position must be smaller than the length of contents")
    ∧ (h < s.contentsLength →
        looperSetHeadPosition s h
          = .ok { s with isFirstWindow := true, headPosition := h })
    ∧ (h < 0 → s.processOnFirstCall = false →
        ∀ m, looperCall { s with isFirstWindow := true, headPosition := h } m
          = .error "contents has been exhausted") := by
  obtain ⟨c, len, hp, ws, ss, ms, rc, fb, pf, fw, fr⟩ := s
  refine ⟨fun hge => ?_, fun hlt => ?_, fun hneg hpf m => ?_⟩
  · rw [looperSetHeadPosition, if_pos hge]
  · rw [looperSetHeadPosition, if_neg (not_le.mpr hlt)]
  · change pf = false at hpf
    subst hpf
    have hdone : looperDone ⟨c, len, h, ws, ss, ms, rc, fb, false, false, fr⟩
        = true := by
      rw [looperDone]
      split <;> exact decide_eq_true (Or.inr hneg)
    simp [looperCall, hdone]

/-- Witness for `looper_head_position_validation`: after storing the
negative head `-1/4`, the next call raises the exhaustion error. -/
theorem looper_head_position_validation_witness :
    looperCall { looperScenarioState true true 0 with
        isFirstWindow := true, headPosition := -(1/4) } ⟨false, [true]⟩
      = .error "contents has been exhausted" :=
  (looper_head_position_validation (looperScenarioState true true 0)
    (-(1/4))).2.2 (by norm_num) rfl ⟨false, [true]⟩

end Auxjad
